import Mathlib

/-!
Shallow embedding of the nix flake.lock manager: the zod schema in
src/lib/modules/manager/nix/schema.ts together with the two variants of
extractPackageFile found in the extraction module (the sibling-file variant,
which reads flake.lock next to the package file, checks root linkage and
supports a host override and a tarball rewrite; and the inline variant, which
takes the lock content directly and checks the lock format version).

Modelling conventions:
- a JSON object is an association list of (key, value) pairs in document
  order (a JS object cannot carry duplicate keys, so the lists standing for
  real inputs have pairwise distinct keys; iteration over pairs is then
  exactly Object.keys followed by indexing);
- a possibly-undefined JS value is an Option, and none stands for undefined;
- a thrown runtime error (TypeError) is the error branch of Except String;
- machine numbers (lastModified, revCount, version) are Int, which is exact
  for every value the claims touch.
-/

/-- The InputType enum of schema.ts: z.enum of exactly these five strings.
The string tarball is not a member. -/
def InputType : List String := ["git", "github", "gitlab", "indirect", "sourcehut"]

/-- OriginalInput of schema.ts: owner, repo, ref, url are optional strings and
type is an InputType.  The host field is NOT declared in the schema; it is
carried here so that a raw document can hold the JSON key that the
sibling-variant extractor reads as flakeOriginal.host.  Because z.object by
default strips keys that are not declared, OriginalInput.safeParse always
returns host := none. -/
structure OriginalInput where
  host : Option String := none
  owner : Option String := none
  repo : Option String := none
  ref : Option String := none
  type : String
  url : Option String := none
  deriving DecidableEq, Repr

/-- LockedInput of schema.ts: host, owner, repo, ref, url optional;
lastModified, narHash, rev, revCount required; type an InputType. -/
structure LockedInput where
  host : Option String := none
  lastModified : Int
  narHash : String
  owner : Option String := none
  repo : Option String := none
  ref : Option String := none
  rev : String
  revCount : Int
  type : String
  url : Option String := none
  deriving DecidableEq, Repr

/-- NixInput of schema.ts: inputs is an optional record from input alias to
referenced node name, locked and original are optional. -/
structure NixInput where
  inputs : Option (List (String × String)) := none
  locked : Option LockedInput := none
  original : Option OriginalInput := none
  deriving DecidableEq, Repr

/-- NixFlakeLock of schema.ts: nodes is a record from node name to NixInput,
root is a string and version a number.  The schema does not require the
nodes record to contain an entry under the key root. -/
structure NixFlakeLock where
  nodes : List (String × NixInput)
  root : String
  version : Int
  deriving DecidableEq, Repr

/-- Validation of an optional field: an absent value passes, a present value
must itself validate (z.optional). -/
def parseOptField {α : Type} (p : α → Option α) : Option α → Option (Option α)
  | none => some none
  | some x => (p x).map some

/-- OriginalInput validation: type must be one of the five InputType strings;
the undeclared host key is stripped. -/
def OriginalInput.safeParse (o : OriginalInput) : Option OriginalInput :=
  if o.type ∈ InputType then some { o with host := none } else none

/-- LockedInput validation: type must be one of the five InputType strings. -/
def LockedInput.safeParse (l : LockedInput) : Option LockedInput :=
  if l.type ∈ InputType then some l else none

/-- NixInput validation: locked and original validate when present. -/
def NixInput.safeParse (i : NixInput) : Option NixInput := do
  let locked ← parseOptField LockedInput.safeParse i.locked
  let original ← parseOptField OriginalInput.safeParse i.original
  some { inputs := i.inputs, locked := locked, original := original }

/-- NixFlakeLock.safeParse of schema.ts: every node value must validate. -/
def NixFlakeLock.safeParse (fl : NixFlakeLock) : Option NixFlakeLock := do
  let nodes ← fl.nodes.mapM (fun p => (NixInput.safeParse p.2).map (fun i => (p.1, i)))
  some { nodes := nodes, root := fl.root, version := fl.version }

/-- Id of the git-refs datasource (external module datasource/git-refs),
the single fixed datasource tag used by every branch of the classifier. -/
def GitRefsDatasource.id : String := "git-refs"

/-- A PackageDependency record as pushed by the extractor.  Every field whose
value can be a possibly-undefined expression in the source is an Option. -/
structure PackageDependency where
  depName : String
  currentValue : Option String
  currentDigest : Option String
  replaceString : Option String
  datasource : Option String
  packageName : Option String
  deriving DecidableEq, Repr

/-- The result envelope: PackageFileContent exposes the deps field. -/
structure PackageFileContent where
  deps : List PackageDependency
  deriving DecidableEq, Repr

/-- JS template-literal interpolation of a possibly-undefined string:
undefined prints as the string undefined. -/
def interp : Option String → String
  | some s => s
  | none => "undefined"

/-- Indexing a JS record by key: the first pair with the given key, if any. -/
def findNode (nodes : List (String × NixInput)) (key : String) : Option NixInput :=
  (nodes.find? (fun p => p.1 == key)).map (fun p => p.2)

/-- The trailing .tar.gz of the tarball regex: seven characters where the
two dots are unescaped and hence match any character. -/
def tarballSuffixOk (cs : List Char) : Bool :=
  match cs with
  | [_, 't', 'a', 'r', _, 'g', 'z'] => true
  | _ => false

/-- Split a character list at the first slash, as a greedy match of the
character class excluding the slash. -/
def takeSeg (cs : List Char) : List Char × List Char :=
  (cs.takeWhile (fun c => c != '/'), cs.dropWhile (fun c => c != '/'))

/-- Matching of the anchored regex lockableHTTPTarballProtocol against a
whole string, returning the domain, owner and repo captures on success.
The rev capture is .+ and may span slashes; it is not used by the
replacement, so it is not returned. -/
def matchTarballUrl (s : String) : Option (String × String × String) :=
  let cs := s.toList
  if cs.take 8 = "https://".toList then
    let r0 := cs.drop 8
    let (domain, r1) := takeSeg r0
    match r1 with
    | '/' :: r2 =>
      let (owner, r3) := takeSeg r2
      match r3 with
      | '/' :: r4 =>
        let (repo, r5) := takeSeg r4
        if domain.isEmpty || owner.isEmpty || repo.isEmpty then none
        else if r5.take 9 = "/archive/".toList then
          let t := r5.drop 9
          if 8 ≤ t.length then
            if tarballSuffixOk (t.drop (t.length - 7)) then
              some (domain.asString, owner.asString, repo.asString)
            else none
          else none
        else none
      | _ => none
    | _ => none
  else none

/-- String.replace with the anchored tarball regex: on a match the whole
string is replaced by the domain, owner and repo template, otherwise the
string passes through unchanged. -/
def lockableHTTPTarballReplace (url : String) : String :=
  match matchTarballUrl url with
  | some (domain, owner, repo) =>
    "https://" ++ domain ++ "/" ++ owner ++ "/" ++ repo
  | none => url

/-- The switch on flakeLocked.type of the sibling-file variant, factored out
of the loop body: each recognized case builds the pushed record, the default
case skips. -/
def Sibling.classify (depName : String) (flakeLocked : LockedInput)
    (flakeOriginal : OriginalInput) : Option PackageDependency :=
  if flakeLocked.type = "github" then
    some { depName := depName
         , currentValue := flakeOriginal.ref
         , currentDigest := some flakeLocked.rev
         , replaceString := some flakeLocked.rev
         , datasource := some GitRefsDatasource.id
         , packageName := some ("https://" ++ flakeOriginal.host.getD "github.com"
             ++ "/" ++ interp flakeOriginal.owner ++ "/" ++ interp flakeOriginal.repo) }
  else if flakeLocked.type = "gitlab" then
    some { depName := depName
         , currentValue := flakeOriginal.ref
         , currentDigest := some flakeLocked.rev
         , replaceString := some flakeLocked.rev
         , datasource := some GitRefsDatasource.id
         , packageName := some ("https://" ++ flakeOriginal.host.getD "gitlab.com"
             ++ "/" ++ interp flakeOriginal.owner ++ "/" ++ interp flakeOriginal.repo) }
  else if flakeLocked.type = "git" then
    some { depName := depName
         , currentValue := flakeOriginal.ref
         , currentDigest := some flakeLocked.rev
         , replaceString := some flakeLocked.rev
         , datasource := some GitRefsDatasource.id
         , packageName := flakeOriginal.url }
  else if flakeLocked.type = "sourcehut" then
    some { depName := depName
         , currentValue := flakeOriginal.ref
         , currentDigest := some flakeLocked.rev
         , replaceString := some flakeLocked.rev
         , datasource := some GitRefsDatasource.id
         , packageName := some ("https://" ++ flakeOriginal.host.getD "git.sr.ht"
             ++ "/" ++ interp flakeOriginal.owner ++ "/" ++ interp flakeOriginal.repo) }
  else if flakeLocked.type = "tarball" then
    some { depName := depName
         , currentValue := flakeLocked.ref
         , currentDigest := some flakeLocked.rev
         , replaceString := some flakeLocked.rev
         , datasource := some GitRefsDatasource.id
         , packageName := some (lockableHTTPTarballReplace (flakeOriginal.url.getD "")) }
  else none

/-- One iteration of the sibling-file variant loop.  The indexing
flakeLock.nodes[root].inputs throws a TypeError when the nodes record has no
root key, modelled by the error branch. -/
def Sibling.step (flakeLock : NixFlakeLock) (deps : List PackageDependency)
    (entry : String × NixInput) : Except String (List PackageDependency) :=
  let depName := entry.1
  if depName = "root" then Except.ok deps
  else
    match findNode flakeLock.nodes "root" with
    | none =>
      Except.error "TypeError: Cannot read properties of undefined (reading inputs)"
    | some rootNode =>
      match rootNode.inputs with
      | none => Except.ok deps
      | some rootInputs =>
        if rootInputs.any (fun p => p.1 == depName) then
          match entry.2.locked, entry.2.original with
          | some flakeLocked, some flakeOriginal =>
            if flakeOriginal.type = "indirect" then Except.ok deps
            else
              match Sibling.classify depName flakeLocked flakeOriginal with
              | some d => Except.ok (deps ++ [d])
              | none => Except.ok deps
          | _, _ => Except.ok deps
        else Except.ok deps

/-- The sibling-file variant loop over a validated lock graph, and the final
deps-or-null result.  A thrown TypeError propagates out of the loop. -/
def Sibling.extract (flakeLock : NixFlakeLock) :
    Except String (Option PackageFileContent) :=
  match flakeLock.nodes.foldlM (Sibling.step flakeLock) [] with
  | Except.error msg => Except.error msg
  | Except.ok deps =>
    if deps.isEmpty then Except.ok none else Except.ok (some { deps := deps })

/-- extractPackageFile, sibling-file variant: validate, then walk.  Reading
the sibling file itself is the excluded collaborator; the argument is the
structured lock content it produced. -/
def Sibling.extractPackageFile (lockContents : NixFlakeLock) :
    Except String (Option PackageFileContent) :=
  match NixFlakeLock.safeParse lockContents with
  | none => Except.ok none
  | some flakeLock => Sibling.extract flakeLock

/-- The provider chain of the inline variant, factored out of the loop body.
The github, gitlab and sourcehut tests are on flakeLocked.type, the git test
is on flakeOriginal.type, in source order. -/
def Inline.classify (depName : String) (flakeLocked : LockedInput)
    (flakeOriginal : OriginalInput) : Option PackageDependency :=
  if flakeLocked.type = "github" then
    some { depName := depName
         , currentValue := flakeOriginal.ref
         , currentDigest := some flakeLocked.rev
         , replaceString := some flakeLocked.rev
         , datasource := some GitRefsDatasource.id
         , packageName := some ("https://github.com/" ++ interp flakeOriginal.owner
             ++ "/" ++ interp flakeOriginal.repo) }
  else if flakeLocked.type = "gitlab" then
    some { depName := depName
         , currentValue := flakeOriginal.ref
         , currentDigest := some flakeLocked.rev
         , replaceString := some flakeLocked.rev
         , datasource := some GitRefsDatasource.id
         , packageName := some ("https://gitlab.com/" ++ interp flakeOriginal.owner
             ++ "/" ++ interp flakeOriginal.repo) }
  else if flakeOriginal.type = "git" then
    some { depName := depName
         , currentValue := flakeOriginal.ref
         , currentDigest := some flakeLocked.rev
         , replaceString := some flakeLocked.rev
         , datasource := some GitRefsDatasource.id
         , packageName := flakeOriginal.url }
  else if flakeLocked.type = "sourcehut" then
    some { depName := depName
         , currentValue := flakeOriginal.ref
         , currentDigest := some flakeLocked.rev
         , replaceString := some flakeLocked.rev
         , datasource := some GitRefsDatasource.id
         , packageName := some ("https://git.sr.ht/" ++ interp flakeOriginal.owner
             ++ "/" ++ interp flakeOriginal.repo) }
  else none

/-- One iteration of the inline variant loop (no root-linkage check). -/
def Inline.step (deps : List PackageDependency) (entry : String × NixInput) :
    List PackageDependency :=
  if entry.1 = "root" then deps
  else
    match entry.2.locked, entry.2.original with
    | some flakeLocked, some flakeOriginal =>
      if flakeOriginal.type = "indirect" then deps
      else
        match Inline.classify entry.1 flakeLocked flakeOriginal with
        | some d => deps ++ [d]
        | none => deps
    | _, _ => deps

/-- The inline variant on a validated lock graph: the version gate, the loop
and the deps-or-null result. -/
def Inline.extract (flakeLock : NixFlakeLock) : Option PackageFileContent :=
  if flakeLock.version ≠ 7 then none
  else
    let deps := flakeLock.nodes.foldl Inline.step []
    if deps.isEmpty then none else some { deps := deps }

/-- extractPackageFile, inline variant: validate, then extract. -/
def Inline.extractPackageFile (content : NixFlakeLock) : Option PackageFileContent :=
  match NixFlakeLock.safeParse content with
  | none => none
  | some flakeLock => Inline.extract flakeLock

/-- The dependency list carried by a sibling-variant result, empty for a
thrown error or a null result. -/
def depsOfSibling : Except String (Option PackageFileContent) → List PackageDependency
  | Except.ok (some r) => r.deps
  | _ => []

/-- The dependency list carried by an inline-variant result. -/
def depsOfInline : Option PackageFileContent → List PackageDependency
  | some r => r.deps
  | none => []

/-- A root node declaring exactly one input, under the alias equal to the
referenced node name. -/
def rootNodeWith (name : String) : NixInput :=
  { inputs := some [(name, name)], locked := none, original := none }

/-- A locked github input pinned at rev abc123. -/
def githubLocked : LockedInput :=
  { lastModified := 1, narHash := "sha256-gh", rev := "abc123", revCount := 1
  , type := "github" }

/-- The original reference owner foo, repo bar, ref main, type github. -/
def plainGithubOriginal : OriginalInput :=
  { owner := some "foo", repo := some "bar", ref := some "main", type := "github" }

/-- The round-trip lock graph of the spec: a root node and one github node. -/
def roundTripLock : NixFlakeLock :=
  { nodes := [ ("root", rootNodeWith "dep")
             , ("dep", { inputs := none
                       , locked := some githubLocked
                       , original := some plainGithubOriginal }) ]
  , root := "root", version := 7 }

/-- The record the round-trip graph must produce. -/
def roundTripDep : PackageDependency :=
  { depName := "dep", currentValue := some "main", currentDigest := some "abc123"
  , replaceString := some "abc123", datasource := some GitRefsDatasource.id
  , packageName := some "https://github.com/foo/bar" }

/-- A locked tarball input: the type string tarball is outside InputType. -/
def tarballLocked : LockedInput :=
  { lastModified := 1, narHash := "sha256-tar", ref := some "refs/heads/main"
  , rev := "deadbeef", revCount := 3, type := "tarball"
  , url := some "https://example.org/o/r/archive/deadbeef.tar.gz" }

/-- The original tarball reference carrying the lockable archive url. -/
def tarballOriginal : OriginalInput :=
  { type := "tarball", url := some "https://example.org/o/r/archive/deadbeef.tar.gz" }

/-- A lock graph whose single dependency node is a tarball input. -/
def tarballLock : NixFlakeLock :=
  { nodes := [ ("root", rootNodeWith "tarnode")
             , ("tarnode", { inputs := none
                           , locked := some tarballLocked
                           , original := some tarballOriginal }) ]
  , root := "root", version := 7 }

/-- An original github reference that carries an explicit host key. -/
def hostOriginal : OriginalInput :=
  { host := some "example.com", owner := some "foo", repo := some "bar"
  , ref := some "main", type := "github" }

/-- A lock graph whose github node carries original.host. -/
def hostLock : NixFlakeLock :=
  { nodes := [ ("root", rootNodeWith "dep")
             , ("dep", { inputs := none
                       , locked := some githubLocked
                       , original := some hostOriginal }) ]
  , root := "root", version := 7 }

/-- A schema-valid lock graph whose nodes record has a named entry but no
entry under the key root. -/
def noRootLock : NixFlakeLock :=
  { nodes := [ ("a", { inputs := none
                     , locked := some githubLocked
                     , original := some plainGithubOriginal }) ]
  , root := "root", version := 7 }

/-- A locked git input pinned at rev cafebabe. -/
def gitLocked : LockedInput :=
  { lastModified := 1, narHash := "sha256-git", rev := "cafebabe", revCount := 2
  , type := "git", url := some "https://example.com/repo.git" }

/-- An original reference of type github for a node whose locked type is git. -/
def mixedOriginal : OriginalInput :=
  { ref := some "main", type := "github", url := some "https://example.com/repo.git" }

/-- A lock graph whose dependency node has locked.type git and
original.type github. -/
def mixedLock : NixFlakeLock :=
  { nodes := [ ("root", rootNodeWith "dep")
             , ("dep", { inputs := none
                       , locked := some gitLocked
                       , original := some mixedOriginal }) ]
  , root := "root", version := 7 }

/-- An original git reference with no url field. -/
def noUrlOriginal : OriginalInput := { ref := some "main", type := "git" }

/-- An original indirect reference. -/
def indirectOriginal : OriginalInput := { type := "indirect" }

/-- A dependency node whose original is indirect. -/
def indirectNode : NixInput :=
  { inputs := none, locked := some githubLocked, original := some indirectOriginal }

/-- A dependency node with locked and original both absent. -/
def emptyNode : NixInput := { inputs := none, locked := none, original := none }

/-- A github dependency node used as the surviving neighbour in the skip
claims. -/
def goodNode : NixInput :=
  { inputs := none, locked := some githubLocked, original := some plainGithubOriginal }

/-- C9: the round-trip graph with a github node (owner foo, repo bar, ref
main, rev abc123) produces exactly the record with currentValue main,
currentDigest abc123, replaceString abc123, the fixed git-refs datasource tag
and packageName https://github.com/foo/bar, in both variants. -/
theorem nix_c9_round_trip :
    Sibling.extractPackageFile roundTripLock = Except.ok (some { deps := [roundTripDep] }) ∧
    Inline.extractPackageFile roundTripLock = some { deps := [roundTripDep] } :=
  ⟨rfl, rfl⟩

/-- C1: a lock graph whose node has locked.type tarball (and the lockable
archive url) is rejected by the schema, because the InputType enum has no
tarball member, so extraction returns null instead of the claimed record;
the classifier branch itself, were it reachable, would emit the rewritten
packageName https://example.org/o/r with currentValue locked.ref. -/
theorem nix_c1_tarball_dead :
    NixFlakeLock.safeParse tarballLock = none ∧
    Sibling.extractPackageFile tarballLock = Except.ok none ∧
    Sibling.classify "tarnode" tarballLocked tarballOriginal =
      some { depName := "tarnode", currentValue := some "refs/heads/main"
           , currentDigest := some "deadbeef", replaceString := some "deadbeef"
           , datasource := some GitRefsDatasource.id
           , packageName := some "https://example.org/o/r" } :=
  ⟨rfl, rfl, rfl⟩

/-- C2: a github node whose original carries host example.com is accepted,
but the schema strips the undeclared host key, so the emitted packageName is
https://github.com/foo/bar and not https://example.com/foo/bar; the
classifier itself, given the unstripped original, would honour the host. -/
theorem nix_c2_host_stripped :
    (NixFlakeLock.safeParse hostLock).isSome = true ∧
    Sibling.extractPackageFile hostLock = Except.ok (some { deps := [roundTripDep] }) ∧
    Sibling.classify "dep" githubLocked hostOriginal =
      some { depName := "dep", currentValue := some "main"
           , currentDigest := some "abc123", replaceString := some "abc123"
           , datasource := some GitRefsDatasource.id
           , packageName := some "https://example.com/foo/bar" } :=
  ⟨rfl, rfl, rfl⟩

/-- C4: an accepted lock graph whose nodes record has a named entry but no
entry under the key root makes the sibling-file extraction throw a TypeError
when it indexes nodes at root, rather than return a value. -/
theorem nix_c4_root_crash :
    (NixFlakeLock.safeParse noRootLock).isSome = true ∧
    Sibling.extractPackageFile noRootLock =
      Except.error "TypeError: Cannot read properties of undefined (reading inputs)" :=
  ⟨rfl, rfl⟩

/-- C3 counterexample: an accepted graph whose dependency node has
locked.type git but original.type github yields no record at all in the
inline variant, so classification there is not determined by locked.type. -/
theorem nix_c3_counterexample :
    (NixFlakeLock.safeParse mixedLock).isSome = true ∧
    Inline.extractPackageFile mixedLock = none :=
  ⟨rfl, rfl⟩

/-- C3 amended: in the sibling-file variant the branch taken is determined by
locked.type alone, so locked.type git always yields the git record; in the
inline variant the git branch tests original.type instead, so a node with
locked.type git is emitted exactly when original.type is also git. -/
theorem nix_c3_amended (n : String) (l : LockedInput) (o : OriginalInput)
    (hl : l.type = "git") :
    Sibling.classify n l o =
      some { depName := n, currentValue := o.ref, currentDigest := some l.rev
           , replaceString := some l.rev, datasource := some GitRefsDatasource.id
           , packageName := o.url } ∧
    Inline.classify n l o =
      (if o.type = "git" then
        some { depName := n, currentValue := o.ref, currentDigest := some l.rev
             , replaceString := some l.rev, datasource := some GitRefsDatasource.id
             , packageName := o.url }
       else none) := by
  constructor
  · unfold Sibling.classify
    rw [hl]
    rfl
  · unfold Inline.classify
    rw [hl]
    by_cases ho : o.type = "git"
    · rw [if_pos ho, if_pos ho]
      rfl
    · rw [if_neg ho, if_neg ho]
      rfl

/-- C3 amended, witness: the mixed node (locked git, original github) at a
concrete input. -/
theorem nix_c3_amended_witness :
    Sibling.classify "dep" gitLocked mixedOriginal =
      some { depName := "dep", currentValue := some "main"
           , currentDigest := some "cafebabe", replaceString := some "cafebabe"
           , datasource := some GitRefsDatasource.id
           , packageName := some "https://example.com/repo.git" } ∧
    Inline.classify "dep" gitLocked mixedOriginal =
      (if mixedOriginal.type = "git" then
        some { depName := "dep", currentValue := some "main"
             , currentDigest := some "cafebabe", replaceString := some "cafebabe"
             , datasource := some GitRefsDatasource.id
             , packageName := some "https://example.com/repo.git" }
       else none) := by
  have h := nix_c3_amended "dep" gitLocked mixedOriginal rfl
  simpa [mixedOriginal, gitLocked] using h

/-- C6: in the inline variant any lock graph whose version differs from 7
extracts to null, whatever its nodes are, so no per-node processing happens. -/
theorem nix_c6_version_gate (ns : List (String × NixInput)) (rt : String)
    (v : Int) (hv : v ≠ 7) :
    Inline.extract { nodes := ns, root := rt, version := v } = none := by
  unfold Inline.extract
  exact if_pos hv

/-- C6 witness: a version 6 graph with a github node extracts to null. -/
theorem nix_c6_version_gate_witness :
    Inline.extract { nodes := [("root", rootNodeWith "dep"), ("dep", goodNode)]
                   , root := "root", version := 6 } = none :=
  nix_c6_version_gate _ "root" 6 (by decide)

/-- C10: a node with locked.type git and no original.url is still classified
in the sibling-file variant: the record is emitted with packageName none
while depName, currentDigest and replaceString are populated. -/
theorem nix_c10_git_no_url (n : String) (l : LockedInput) (o : OriginalInput)
    (hl : l.type = "git") (hu : o.url = none) :
    Sibling.classify n l o =
      some { depName := n, currentValue := o.ref, currentDigest := some l.rev
           , replaceString := some l.rev, datasource := some GitRefsDatasource.id
           , packageName := none } := by
  unfold Sibling.classify
  rw [hl, hu]
  rfl

/-- C10 witness: the git node with no url at a concrete input. -/
theorem nix_c10_git_no_url_witness :
    Sibling.classify "dep" gitLocked noUrlOriginal =
      some { depName := "dep", currentValue := some "main"
           , currentDigest := some "cafebabe", replaceString := some "cafebabe"
           , datasource := some GitRefsDatasource.id, packageName := none } :=
  nix_c10_git_no_url "dep" gitLocked noUrlOriginal rfl rfl

/-- Injectivity of the ok branch of Except over String errors. -/
theorem except_ok_inj {α : Type} {a b : α}
    (h : (Except.ok a : Except String α) = Except.ok b) : a = b := by
  injection h

/-- Every record built by the sibling classifier carries the node key as its
depName. -/
theorem Sibling.classify_keeps_depName {n : String} {l : LockedInput} {o : OriginalInput}
    {d : PackageDependency} (h : Sibling.classify n l o = some d) : d.depName = n := by
  simp only [Sibling.classify] at h
  split_ifs at h
  all_goals first
    | exact Option.noConfusion h
    | (injection h with h2; subst h2; rfl)

/-- Every record built by the inline classifier carries the node key as its
depName. -/
theorem Inline.classify_gives_depName {n : String} {l : LockedInput} {o : OriginalInput}
    {d : PackageDependency} (h : Inline.classify n l o = some d) : d.depName = n := by
  simp only [Inline.classify] at h
  split_ifs at h
  all_goals first
    | exact Option.noConfusion h
    | (injection h with h2; subst h2; rfl)

/-- A successful sibling loop iteration leaves the accumulator unchanged or
appends one record named after a non-root node key. -/
theorem Sibling.step_ok_cases (fl : NixFlakeLock) (acc : List PackageDependency)
    (e : String × NixInput) (acc' : List PackageDependency)
    (h : Sibling.step fl acc e = Except.ok acc') :
    acc' = acc ∨ ∃ d, acc' = acc ++ [d] ∧ d.depName = e.1 ∧ e.1 ≠ "root" := by
  simp only [Sibling.step] at h
  by_cases h1 : e.1 = "root"
  · rw [if_pos h1] at h
    exact Or.inl (except_ok_inj h).symm
  · rw [if_neg h1] at h
    cases hr : findNode fl.nodes "root" with
    | none =>
      rw [hr] at h
      exact Except.noConfusion h
    | some r0 =>
      rw [hr] at h
      cases hri : r0.inputs with
      | none =>
        simp only [hri] at h
        exact Or.inl (except_ok_inj h).symm
      | some ri =>
        simp only [hri] at h
        by_cases hany : ri.any (fun p => p.1 == e.1) = true
        · rw [if_pos hany] at h
          cases hl : e.2.locked with
          | none =>
            cases ho : e.2.original <;> simp only [hl, ho] at h <;>
              exact Or.inl (except_ok_inj h).symm
          | some l =>
            cases ho : e.2.original with
            | none =>
              simp only [hl, ho] at h
              exact Or.inl (except_ok_inj h).symm
            | some o =>
              simp only [hl, ho] at h
              by_cases hind : o.type = "indirect"
              · rw [if_pos hind] at h
                exact Or.inl (except_ok_inj h).symm
              · rw [if_neg hind] at h
                cases hc : Sibling.classify e.1 l o with
                | none =>
                  simp only [hc] at h
                  exact Or.inl (except_ok_inj h).symm
                | some d =>
                  simp only [hc] at h
                  exact Or.inr ⟨d, (except_ok_inj h).symm, Sibling.classify_keeps_depName hc, h1⟩
        · rw [if_neg hany] at h
          exact Or.inl (except_ok_inj h).symm

/-- An inline loop iteration leaves the accumulator unchanged or appends one
record named after a non-root node key. -/
theorem Inline.step_cases (acc : List PackageDependency) (e : String × NixInput) :
    Inline.step acc e = acc ∨
      ∃ d, Inline.step acc e = acc ++ [d] ∧ d.depName = e.1 ∧ e.1 ≠ "root" := by
  by_cases h1 : e.1 = "root"
  · exact Or.inl (by simp [Inline.step, h1])
  · cases hl : e.2.locked with
    | none =>
      cases ho : e.2.original <;> exact Or.inl (by simp [Inline.step, h1, hl, ho])
    | some l =>
      cases ho : e.2.original with
      | none => exact Or.inl (by simp [Inline.step, h1, hl, ho])
      | some o =>
        by_cases hind : o.type = "indirect"
        · exact Or.inl (by simp [Inline.step, h1, hl, ho, hind])
        · cases hc : Inline.classify e.1 l o with
          | none => exact Or.inl (by simp [Inline.step, h1, hl, ho, hind, hc])
          | some d =>
            exact Or.inr ⟨d, by simp [Inline.step, h1, hl, ho, hind, hc],
              Inline.classify_gives_depName hc, h1⟩

/-- The sibling loop, run from an accumulator free of root records, yields a
list free of root records. -/
theorem Sibling.foldlM_root (fl : NixFlakeLock) :
    ∀ (es : List (String × NixInput)) (acc res : List PackageDependency),
      es.foldlM (Sibling.step fl) acc = Except.ok res →
      (∀ d ∈ acc, d.depName ≠ "root") → ∀ d ∈ res, d.depName ≠ "root" := by
  intro es
  induction es with
  | nil =>
    intro acc res h hacc
    rw [List.foldlM_nil] at h
    have h2 : acc = res := except_ok_inj h
    subst h2
    exact hacc
  | cons e es ih =>
    intro acc res h hacc
    rw [List.foldlM_cons] at h
    cases hstep : Sibling.step fl acc e with
    | error msg =>
      rw [hstep] at h
      exact Except.noConfusion h
    | ok acc' =>
      rw [hstep] at h
      have h2 : es.foldlM (Sibling.step fl) acc' = Except.ok res := h
      refine ih acc' res h2 ?_
      intro d hd
      rcases Sibling.step_ok_cases fl acc e acc' hstep with h3 | ⟨d0, h3, hdn, hne⟩
      · subst h3
        exact hacc d hd
      · subst h3
        rcases List.mem_append.mp hd with h4 | h4
        · exact hacc d h4
        · simp only [List.mem_singleton] at h4
          subst h4
          rw [hdn]
          exact hne

/-- The inline loop, run from an accumulator free of root records, yields a
list free of root records. -/
theorem Inline.foldl_root :
    ∀ (es : List (String × NixInput)) (acc : List PackageDependency),
      (∀ d ∈ acc, d.depName ≠ "root") →
      ∀ d ∈ es.foldl Inline.step acc, d.depName ≠ "root" := by
  intro es
  induction es with
  | nil =>
    intro acc hacc d hd
    rw [List.foldl_nil] at hd
    exact hacc d hd
  | cons e es ih =>
    intro acc hacc d hd
    rw [List.foldl_cons] at hd
    refine ih (Inline.step acc e) ?_ d hd
    intro d0 hd0
    rcases Inline.step_cases acc e with h3 | ⟨d1, h3, hdn, hne⟩
    · rw [h3] at hd0
      exact hacc d0 hd0
    · rw [h3] at hd0
      rcases List.mem_append.mp hd0 with h4 | h4
      · exact hacc d0 h4
      · simp only [List.mem_singleton] at h4
        subst h4
        rw [hdn]
        exact hne

/-- C5: in both variants, no record of the output sequence carries the node
key root: the synthetic root entry never produces a dependency record. -/
theorem nix_c5_root_excluded (fl : NixFlakeLock) (d : PackageDependency)
    (h : d ∈ depsOfSibling (Sibling.extract fl) ∨ d ∈ depsOfInline (Inline.extract fl)) :
    d.depName ≠ "root" := by
  rcases h with h | h
  · simp only [Sibling.extract] at h
    cases hf : fl.nodes.foldlM (Sibling.step fl) [] with
    | error msg =>
      rw [hf] at h
      simp [depsOfSibling] at h
    | ok deps =>
      rw [hf] at h
      have hmem : d ∈ deps := by
        by_cases he : deps.isEmpty = true
        · simp [he, depsOfSibling] at h
        · simp only [he, if_neg, ite_false] at h
          simpa [depsOfSibling] using h
      exact Sibling.foldlM_root fl fl.nodes [] deps hf (by simp) d hmem
  · simp only [Inline.extract] at h
    by_cases hv : fl.version ≠ 7
    · rw [if_pos hv] at h
      simp [depsOfInline] at h
    · rw [if_neg hv] at h
      by_cases he : (fl.nodes.foldl Inline.step []).isEmpty = true
      · simp [he, depsOfInline] at h
      · simp only [he, if_neg, ite_false] at h
        have hmem : d ∈ fl.nodes.foldl Inline.step [] := by
          simpa [depsOfInline] using h
        exact Inline.foldl_root fl.nodes [] (by simp) d hmem

/-- C5 witness: the github record of the round-trip graph is in the output
and its depName differs from root. -/
theorem nix_c5_root_excluded_witness : roundTripDep.depName ≠ "root" :=
  nix_c5_root_excluded roundTripLock roundTripDep (Or.inl (by decide))

/-- Indexing at root is unchanged by removing a pair whose key is not root. -/
theorem findNode_middle (ns₁ ns₂ : List (String × NixInput)) (n : String)
    (node : NixInput) (hn : n ≠ "root") :
    findNode (ns₁ ++ (n, node) :: ns₂) "root" = findNode (ns₁ ++ ns₂) "root" := by
  have hb : (n == "root") = false := beq_eq_false_iff_ne.mpr hn
  induction ns₁ with
  | nil =>
    simp [findNode, List.find?, hb]
  | cons a as ih =>
    simp only [List.cons_append, findNode, List.find?]
    cases hpa : (a.1 == "root") with
    | true => rfl
    | false =>
      simpa [findNode] using ih

/-- The sibling loop body depends on the graph only through the indexing of
its nodes at root. -/
theorem Sibling.step_congr (fl fl' : NixFlakeLock)
    (h : findNode fl.nodes "root" = findNode fl'.nodes "root") :
    Sibling.step fl = Sibling.step fl' := by
  funext acc e
  simp only [Sibling.step, h]

/-- A sibling iteration over a non-root node that is missing locked or
original, or whose original is indirect, leaves the accumulator unchanged,
provided the graph indexes a node at root. -/
theorem Sibling.step_skips_node (fl : NixFlakeLock) (acc : List PackageDependency)
    (n : String) (node : NixInput) (r0 : NixInput) (hn : n ≠ "root")
    (hr : findNode fl.nodes "root" = some r0)
    (hskip : node.locked = none ∨ node.original = none ∨
      ∃ o, node.original = some o ∧ o.type = "indirect") :
    Sibling.step fl acc (n, node) = Except.ok acc := by
  simp only [Sibling.step, hr]
  rw [if_neg hn]
  cases hri : r0.inputs with
  | none => rfl
  | some ri =>
    by_cases hany : ri.any (fun p => p.1 == n) = true
    · rcases hskip with hl | ho | ⟨o, ho, hot⟩
      · cases ho2 : node.original <;> simp [hany, hl, ho2]
      · cases hl2 : node.locked <;> simp [hany, ho, hl2]
      · cases hl2 : node.locked with
        | none => simp [hany, hl2]
        | some l => simp [hany, hl2, ho, hot]
    · simp [hany]

/-- An inline iteration over a non-root node that is missing locked or
original, or whose original is indirect, leaves the accumulator unchanged. -/
theorem Inline.step_drops_node (acc : List PackageDependency) (n : String)
    (node : NixInput) (hn : n ≠ "root")
    (hskip : node.locked = none ∨ node.original = none ∨
      ∃ o, node.original = some o ∧ o.type = "indirect") :
    Inline.step acc (n, node) = acc := by
  simp only [Inline.step]
  rw [if_neg hn]
  rcases hskip with hl | ho | ⟨o, ho, hot⟩
  · cases ho2 : node.original <;> simp [hl, ho2]
  · cases hl2 : node.locked <;> simp [ho, hl2]
  · cases hl2 : node.locked with
    | none => simp [hl2]
    | some l => simp [hl2, ho, hot]

/-- When the graph indexes a node at root, a sibling iteration never throws. -/
theorem Sibling.step_isOk (fl : NixFlakeLock) (r0 : NixInput)
    (hr : findNode fl.nodes "root" = some r0) (acc : List PackageDependency)
    (e : String × NixInput) : ∃ acc', Sibling.step fl acc e = Except.ok acc' := by
  simp only [Sibling.step, hr]
  by_cases h1 : e.1 = "root"
  · exact ⟨acc, by rw [if_pos h1]⟩
  · rw [if_neg h1]
    cases hri : r0.inputs with
    | none => exact ⟨acc, rfl⟩
    | some ri =>
      by_cases hany : ri.any (fun p => p.1 == e.1) = true
      · cases hl : e.2.locked with
        | none => exact ⟨acc, by cases ho : e.2.original <;> simp [hany, hl, ho]⟩
        | some l =>
          cases ho : e.2.original with
          | none => exact ⟨acc, by simp [hany, hl, ho]⟩
          | some o =>
            by_cases hind : o.type = "indirect"
            · exact ⟨acc, by simp [hany, hl, ho, hind]⟩
            · cases hc : Sibling.classify e.1 l o with
              | none => exact ⟨acc, by simp [hany, hl, ho, hind, hc]⟩
              | some d => exact ⟨acc ++ [d], by simp [hany, hl, ho, hind, hc]⟩
      · exact ⟨acc, by simp [hany]⟩

/-- When the graph indexes a node at root, the whole sibling loop never
throws. -/
theorem Sibling.foldlM_isOk (fl : NixFlakeLock) (r0 : NixInput)
    (hr : findNode fl.nodes "root" = some r0) :
    ∀ (es : List (String × NixInput)) (acc : List PackageDependency),
      ∃ res, es.foldlM (Sibling.step fl) acc = Except.ok res := by
  intro es
  induction es with
  | nil => exact fun acc => ⟨acc, by rw [List.foldlM_nil]; rfl⟩
  | cons e es ih =>
    intro acc
    obtain ⟨acc', hstep⟩ := Sibling.step_isOk fl r0 hr acc e
    obtain ⟨res, hres⟩ := ih acc'
    refine ⟨res, ?_⟩
    rw [List.foldlM_cons, hstep]
    exact hres

/-- When the graph indexes a node at root, the sibling extraction returns a
value rather than throwing. -/
theorem Sibling.extract_isOk (fl : NixFlakeLock) (r0 : NixInput)
    (hr : findNode fl.nodes "root" = some r0) :
    ∃ res, Sibling.extract fl = Except.ok res := by
  obtain ⟨deps, hd⟩ := Sibling.foldlM_isOk fl r0 hr fl.nodes []
  by_cases he : deps.isEmpty = true
  · refine ⟨none, ?_⟩
    simp only [Sibling.extract]
    rw [hd]
    simp [he]
  · refine ⟨some { deps := deps }, ?_⟩
    simp only [Sibling.extract]
    rw [hd]
    simp [he]

/-- Removing a non-root node that both variants skip (missing locked or
original, or original of type indirect) does not change either extraction
result, provided a node keyed root exists. -/
theorem extract_skip_node (ns₁ ns₂ : List (String × NixInput)) (rt : String)
    (v : Int) (n : String) (node : NixInput) (hn : n ≠ "root")
    (hskip : node.locked = none ∨ node.original = none ∨
      ∃ o, node.original = some o ∧ o.type = "indirect")
    (hroot : (findNode (ns₁ ++ ns₂) "root").isSome = true) :
    Sibling.extract { nodes := ns₁ ++ (n, node) :: ns₂, root := rt, version := v } =
      Sibling.extract { nodes := ns₁ ++ ns₂, root := rt, version := v } ∧
    Inline.extract { nodes := ns₁ ++ (n, node) :: ns₂, root := rt, version := v } =
      Inline.extract { nodes := ns₁ ++ ns₂, root := rt, version := v } := by
  obtain ⟨r0, hr⟩ := Option.isSome_iff_exists.mp hroot
  have hfind : findNode (ns₁ ++ (n, node) :: ns₂) "root" = findNode (ns₁ ++ ns₂) "root" :=
    findNode_middle ns₁ ns₂ n node hn
  constructor
  · have hcongr :
        Sibling.step { nodes := ns₁ ++ (n, node) :: ns₂, root := rt, version := v } =
        Sibling.step { nodes := ns₁ ++ ns₂, root := rt, version := v } :=
      Sibling.step_congr _ _ hfind
    have hiter : ∀ (x : Except String (List PackageDependency)),
        (x >>= fun b => ((n, node) :: ns₂).foldlM
          (Sibling.step { nodes := ns₁ ++ ns₂, root := rt, version := v }) b) =
        (x >>= fun b => ns₂.foldlM
          (Sibling.step { nodes := ns₁ ++ ns₂, root := rt, version := v }) b) := by
      intro x
      cases x with
      | error msg => rfl
      | ok b =>
        show ((n, node) :: ns₂).foldlM
            (Sibling.step { nodes := ns₁ ++ ns₂, root := rt, version := v }) b =
          ns₂.foldlM (Sibling.step { nodes := ns₁ ++ ns₂, root := rt, version := v }) b
        rw [List.foldlM_cons, Sibling.step_skips_node _ b n node r0 hn hr hskip]
        rfl
    have hfold :
        (ns₁ ++ (n, node) :: ns₂).foldlM
          (Sibling.step { nodes := ns₁ ++ ns₂, root := rt, version := v }) [] =
        (ns₁ ++ ns₂).foldlM
          (Sibling.step { nodes := ns₁ ++ ns₂, root := rt, version := v }) [] := by
      rw [List.foldlM_append, List.foldlM_append]
      exact hiter _
    simp only [Sibling.extract]
    rw [hcongr, hfold]
  · simp only [Inline.extract]
    by_cases hv : v ≠ 7
    · rw [if_pos hv, if_pos hv]
    · rw [if_neg hv, if_neg hv]
      have hfold : (ns₁ ++ (n, node) :: ns₂).foldl Inline.step [] =
          (ns₁ ++ ns₂).foldl Inline.step [] := by
        rw [List.foldl_append, List.foldl_append, List.foldl_cons,
          Inline.step_drops_node _ n node hn hskip]
      rw [hfold]

/-- C7: a non-root node whose original has type indirect contributes no
record and does not disturb the rest of the extraction: in both variants the
output over a graph containing the node equals the output over the graph
with the node removed (a node keyed root being present, without which the
sibling variant throws regardless of this node). -/
theorem nix_c7_indirect_skipped (ns₁ ns₂ : List (String × NixInput))
    (rt : String) (v : Int) (n : String) (node : NixInput) (o : OriginalInput)
    (hn : n ≠ "root") (ho : node.original = some o) (ht : o.type = "indirect")
    (hroot : (findNode (ns₁ ++ ns₂) "root").isSome = true) :
    Sibling.extract { nodes := ns₁ ++ (n, node) :: ns₂, root := rt, version := v } =
      Sibling.extract { nodes := ns₁ ++ ns₂, root := rt, version := v } ∧
    Inline.extract { nodes := ns₁ ++ (n, node) :: ns₂, root := rt, version := v } =
      Inline.extract { nodes := ns₁ ++ ns₂, root := rt, version := v } :=
  extract_skip_node ns₁ ns₂ rt v n node hn (Or.inr (Or.inr ⟨o, ho, ht⟩)) hroot

/-- C7 witness: dropping a concrete indirect node from a three-node graph
leaves both outputs unchanged. -/
theorem nix_c7_indirect_skipped_witness :
    Sibling.extract { nodes := [("root", rootNodeWith "dep"), ("ind", indirectNode), ("dep", goodNode)], root := "root", version := 7 } =
      Sibling.extract { nodes := [("root", rootNodeWith "dep"), ("dep", goodNode)], root := "root", version := 7 } ∧
    Inline.extract { nodes := [("root", rootNodeWith "dep"), ("ind", indirectNode), ("dep", goodNode)], root := "root", version := 7 } =
      Inline.extract { nodes := [("root", rootNodeWith "dep"), ("dep", goodNode)], root := "root", version := 7 } :=
  nix_c7_indirect_skipped [("root", rootNodeWith "dep")] [("dep", goodNode)]
    "root" 7 "ind" indirectNode indirectOriginal (by decide) rfl rfl (by decide)

/-- C8: a non-root node with locked or original absent contributes no record,
and the extraction does not abort: in both variants the output over a graph
containing the node equals the output over the graph with the node removed,
and the sibling extraction returns a value (a node keyed root being present,
without which the sibling variant throws regardless of this node). -/
theorem nix_c8_missing_skipped (ns₁ ns₂ : List (String × NixInput))
    (rt : String) (v : Int) (n : String) (node : NixInput)
    (hn : n ≠ "root") (hmiss : node.locked = none ∨ node.original = none)
    (hroot : (findNode (ns₁ ++ ns₂) "root").isSome = true) :
    (Sibling.extract { nodes := ns₁ ++ (n, node) :: ns₂, root := rt, version := v } =
       Sibling.extract { nodes := ns₁ ++ ns₂, root := rt, version := v } ∧
     Inline.extract { nodes := ns₁ ++ (n, node) :: ns₂, root := rt, version := v } =
       Inline.extract { nodes := ns₁ ++ ns₂, root := rt, version := v }) ∧
    ∃ res, Sibling.extract { nodes := ns₁ ++ (n, node) :: ns₂, root := rt, version := v } =
      Except.ok res := by
  have hskip : node.locked = none ∨ node.original = none ∨
      ∃ o, node.original = some o ∧ o.type = "indirect" := by
    rcases hmiss with h | h
    · exact Or.inl h
    · exact Or.inr (Or.inl h)
  refine ⟨extract_skip_node ns₁ ns₂ rt v n node hn hskip hroot, ?_⟩
  obtain ⟨r0, hr⟩ := Option.isSome_iff_exists.mp hroot
  have hfind : findNode (ns₁ ++ (n, node) :: ns₂) "root" = findNode (ns₁ ++ ns₂) "root" :=
    findNode_middle ns₁ ns₂ n node hn
  refine Sibling.extract_isOk _ r0 ?_
  show findNode (ns₁ ++ (n, node) :: ns₂) "root" = some r0
  rw [hfind]
  exact hr

/-- C8 witness: dropping a concrete node with locked and original absent
leaves both outputs unchanged, and the sibling extraction returns a value. -/
theorem nix_c8_missing_skipped_witness :
    (Sibling.extract { nodes := [("root", rootNodeWith "dep"), ("empty", emptyNode), ("dep", goodNode)], root := "root", version := 7 } =
       Sibling.extract { nodes := [("root", rootNodeWith "dep"), ("dep", goodNode)], root := "root", version := 7 } ∧
     Inline.extract { nodes := [("root", rootNodeWith "dep"), ("empty", emptyNode), ("dep", goodNode)], root := "root", version := 7 } =
       Inline.extract { nodes := [("root", rootNodeWith "dep"), ("dep", goodNode)], root := "root", version := 7 }) ∧
    ∃ res, Sibling.extract { nodes := [("root", rootNodeWith "dep"), ("empty", emptyNode), ("dep", goodNode)], root := "root", version := 7 } = Except.ok res :=
  nix_c8_missing_skipped [("root", rootNodeWith "dep")] [("dep", goodNode)]
    "root" 7 "empty" emptyNode (by decide) (Or.inl rfl) (by decide)
